import Mathlib

/-!
Verification of the `LOC` string extraction engine and catalog builder of
`translation.py` (the Lightroom plugin translation-string extractor).

The Python functions `extract_loc_strings`, `extract_complete_value`,
`clean_value`, `format_translation` and the catalog-building loop of
`process_lua_files` are embedded as executable Lean functions over
`List Char`.  The main character-consuming loops of `extract_complete_value`
are translated as mutually recursive functions structurally recursive on a
fuel argument; every recursive call consumes at least one character, so fuel
`length + 1` always suffices and is what the top-level wrappers pass.
-/

namespace Translation

/-- The single-quote character (ASCII 39). -/
def squote : Char := Char.ofNat 39

/-- Python regex `\s` on ASCII text: space, tab, newline, carriage return,
vertical tab, form feed. -/
def pyWs (c : Char) : Bool :=
  c = ' ' || c = '\t' || c = '\n' || c = '\r' || c = '\x0b' || c = '\x0c'

/-- The whitespace set used literally by `extract_complete_value`
(`text[pos] in ' \t\n\r'`). -/
def wsLoop (c : Char) : Bool :=
  c = ' ' || c = '\t' || c = '\n' || c = '\r'

/-- Python `str.strip()` on a character list. -/
def stripList (l : List Char) : List Char :=
  ((l.dropWhile pyWs).reverse.dropWhile pyWs).reverse

/-- Horizontal whitespace of the regex `[ \t]+` used by `clean_value`. -/
def isHT (c : Char) : Bool := c = ' ' || c = '\t'

/-- Fuel-driven body of `collapseWs`; each step consumes at least one
character, so fuel `length + 1` always suffices. -/
def collapseFuel : Nat → List Char → List Char
  | 0, l => l
  | _, [] => []
  | f + 1, c :: cs =>
    if isHT c then ' ' :: collapseFuel f (cs.dropWhile isHT)
    else c :: collapseFuel f cs

/-- Python `re.sub(r'[ \t]+', ' ', line)`: collapse each maximal run of
spaces and tabs to a single space. -/
def collapseWs (l : List Char) : List Char := collapseFuel (l.length + 1) l

/-- Fuel-driven body of `substCarets`; each step consumes at least one
character, so fuel `length + 1` always suffices. -/
def substFuel : Nat → List Char → List Char
  | 0, l => l
  | _, [] => []
  | f + 1, c :: cs =>
    if c = '^' then
      let ds := cs.takeWhile Char.isDigit
      if ds.isEmpty then '^' :: substFuel f cs
      else '\x7b' :: (ds ++ '\x7d' :: substFuel f (cs.dropWhile Char.isDigit))
    else c :: substFuel f cs

/-- Python `re.sub(r'\^(\d+)', r'{\1}', value)`: rewrite `^N` (N a digit
run) to `{N}` (ASCII model of the digit class). -/
def substCarets (l : List Char) : List Char := substFuel (l.length + 1) l

/-- Python `str.split('\n')` on a character list. -/
def splitOnNl : List Char → List (List Char)
  | [] => [[]]
  | c :: cs =>
    if c = '\n' then [] :: splitOnNl cs
    else
      match splitOnNl cs with
      | [] => [[c]]
      | l :: ls => (c :: l) :: ls

/-- The literal four-character separator backslash-n-backslash-n used to
rejoin multiple lines. -/
def nnSep : List Char := ['\\', 'n', '\\', 'n']

/-- The per-line cleanup of `clean_value`: placeholder rewrite, split on
newlines, collapse/trim each line, drop empty lines. -/
def cleanedLines (v : List Char) : List (List Char) :=
  ((splitOnNl (substCarets v)).map (fun l => stripList (collapseWs l))).filter
    (fun l => !l.isEmpty)

/-- Python `clean_value`: placeholder rewrite, newline split, per-line
whitespace collapse and strip, drop empty lines, rejoin two or more lines
with the literal text backslash-n-backslash-n. -/
def clean_value (v : List Char) : List Char :=
  match cleanedLines v with
  | [] => []
  | [l] => l
  | ls => List.intercalate nnSep ls

/-- Append the pending character accumulator to the fragment list, but only
when it is non-empty (`if chars: value_parts.append(...)`). -/
def pushChars (parts : List (List Char)) (chars : List Char) :
    List (List Char) :=
  if chars.isEmpty then parts else parts ++ [chars]

/-- The character-consuming loops of `extract_complete_value`.  With
`single = false` this is the main `while pos < len(text)` loop reading a
double-quoted fragment; with `single = true` it is the nested
single-quoted-fragment loop of lines 164-215 (`chars` then plays the role
of `single_chars`; on end of document its pending characters are
discarded, and the plain `break` paths of the nested loop hand control
back to the main loop with an empty accumulator, while the `should_stop`
paths return directly).  `rest` is the unread suffix of the document,
`parts` the completed fragments (`value_parts`).  Returns the final
fragment list and the unread suffix at which the loop stopped.
Structurally recursive on fuel; every recursive call consumes at least one
character, so fuel `rest.length + 1` is always sufficient. -/
def fragLoop : Nat → Bool → List Char → List (List Char) → List Char →
    List (List Char) × List Char
  | _, single, [], parts, chars =>
    if single then (parts, []) else (pushChars parts chars, [])
  | 0, single, rest, parts, chars =>
    if single then (parts, rest) else (pushChars parts chars, rest)
  | f + 1, false, c :: rs, parts, chars =>
    if c = '\\' then
      match rs with
      | [] => fragLoop f false [] parts (chars ++ ['\\'])
      | n :: rs' =>
        if n = 'n' then fragLoop f false rs' parts (chars ++ ['\n'])
        else if n = 't' then fragLoop f false rs' parts (chars ++ ['\t'])
        else if n = '"' then fragLoop f false rs' parts (chars ++ ['"'])
        else if n = '\\' then fragLoop f false rs' parts (chars ++ ['\\'])
        else fragLoop f false rs parts (chars ++ ['\\'])
    else if c = '"' then
      let parts' := pushChars parts chars
      let r1 := rs.dropWhile wsLoop
      match r1 with
      | [] => (parts', [])
      | d :: r2 =>
        if d = ',' || d = ')' then (parts', d :: r2)
        else
          match d :: r2 with
          | '.' :: '.' :: r3 =>
            let r4 := r3.dropWhile wsLoop
            match r4 with
            | [] => (parts', [])
            | e :: r5 =>
              if e = '"' then fragLoop f false r5 parts' []
              else if e = squote then fragLoop f true r5 parts' []
              else (parts', e :: r5)
          | r1' => (parts', r1')
    else fragLoop f false rs parts (chars ++ [c])
  | f + 1, true, c :: rs, parts, sc =>
    if c = '\\' then
      match rs with
      | [] => fragLoop f true [] parts (sc ++ ['\\'])
      | n :: rs' =>
        if n = squote then fragLoop f true rs' parts (sc ++ [squote])
        else if n = 'n' then fragLoop f true rs' parts (sc ++ ['\n'])
        else fragLoop f true (n :: rs') parts (sc ++ ['\\'])
    else if c = squote then
      let parts' := pushChars parts sc
      let r1 := rs.dropWhile wsLoop
      match r1 with
      | [] => (parts', [])
      | d :: r2 =>
        if d = ',' || d = ')' then (parts', d :: r2)
        else
          match d :: r2 with
          | '.' :: '.' :: r3 =>
            let r4 := r3.dropWhile wsLoop
            match r4 with
            | [] => (parts', [])
            | e :: r5 =>
              if e = '"' then fragLoop f false r5 parts' []
              else if e = squote then fragLoop f true r5 parts' []
              else fragLoop f false (e :: r5) parts' []
          | r1' => fragLoop f false r1' parts' []
    else fragLoop f true rs parts (sc ++ [c])

/-- The main double-quoted-fragment loop of `extract_complete_value`. -/
def mainLoop (f : Nat) (rest : List Char) (parts : List (List Char))
    (chars : List Char) : List (List Char) × List Char :=
  fragLoop f false rest parts chars

/-- The nested single-quoted-fragment loop of `extract_complete_value`. -/
def singleLoop (f : Nat) (rest : List Char) (parts : List (List Char))
    (sc : List Char) : List (List Char) × List Char :=
  fragLoop f true rest parts sc

/-- Python `extract_complete_value(text, start_pos)` restricted to the
suffix starting at `start_pos`: run the fragment loop and, when at least one
fragment was collected, return the cleaned concatenation; otherwise `none`.
Also returns the unread suffix (the Python `next_pos`). -/
def extract_complete_value (s : List Char) : Option (List Char) × List Char :=
  let r := mainLoop (s.length + 1) s [] []
  if r.1.isEmpty then (none, r.2) else (some (clean_value r.1.flatten), r.2)

/-- Match of the regex `LOC\s*\(\s*"` at the head of the list; on success
return the suffix just after the opening quote (the regex `end()`). -/
def locHead : List Char → Option (List Char)
  | 'L' :: 'O' :: 'C' :: rest =>
    match rest.dropWhile pyWs with
    | '(' :: r2 =>
      match r2.dropWhile pyWs with
      | '"' :: r4 => some r4
      | _ => none
    | _ => none
  | _ => none

/-- Python `re.search(r'LOC\s*\(\s*"', text)`: leftmost match; returns the
suffix just after the matched opening quote. -/
def locSearch : List Char → Option (List Char)
  | [] => none
  | c :: cs =>
    match locHead (c :: cs) with
    | some r => some r
    | none => locSearch cs

/-- Python `re.match(r'(\$\$\$/[^=]+)=', lookahead)`: the text must start
with `$$$/`, followed by at least one non-`=` character and then `=`.
Returns group 1 and the match end offset. -/
def keyMatch (l : List Char) : Option (List Char × Nat) :=
  match l with
  | '$' :: '$' :: '$' :: '/' :: rest =>
    let pre := rest.takeWhile (fun c => !(c = '='))
    if pre.isEmpty then none
    else
      match rest.dropWhile (fun c => !(c = '=')) with
      | '=' :: _ => some ('$' :: '$' :: '$' :: '/' :: pre, 4 + pre.length + 1)
      | _ => none
  | _ => none

/-- The `while pos < len(text)` loop of `extract_loc_strings`, operating on
the unread suffix.  Fuel-recursive; each iteration consumes at least one
character, so fuel `length + 1` suffices. -/
def scanLoop : Nat → List Char → List (List Char × List Char)
  | 0, _ => []
  | f + 1, s =>
    match locSearch s with
    | none => []
    | some s1 =>
      match keyMatch (s1.take 500) with
      | none => scanLoop f s1
      | some (g, klen) =>
        match (extract_complete_value (s1.drop klen)).1 with
        | some v =>
          if v.isEmpty then scanLoop f ((s1.drop klen).drop 1)
          else
            (stripList g, v) ::
              scanLoop f
                (if (extract_complete_value (s1.drop klen)).2.length
                      < (s1.drop klen).length
                  then (extract_complete_value (s1.drop klen)).2
                  else (s1.drop klen).drop 1)
        | none => scanLoop f ((s1.drop klen).drop 1)

/-- Python `extract_loc_strings(text)`: scan a whole document and return the
extracted `(key, value)` pairs in order. -/
def extract_loc_strings (t : List Char) : List (List Char × List Char) :=
  scanLoop (t.length + 1) t

/-- Python `format_translation(key, value)`: the live catalog line
`"key=value"`. -/
def format_translation (k v : String) : String :=
  "\"" ++ k ++ "=" ++ v ++ "\""

/-- Lookup in the `seen_translations` mapping, modelled as an association
list in insertion order (keys are unique by construction). -/
def lookupSeen : List (String × String) → String → Option String
  | [], _ => none
  | (k', v') :: rest, k => if k' = k then some v' else lookupSeen rest k

/-- The catalog builder state: the `seen_translations` mapping and the
`output_lines` list of `process_lua_files`. -/
structure CatState where
  seen : List (String × String)
  out : List String
deriving DecidableEq

/-- The body of the inner `for key, value in translations` loop of
`process_lua_files`: first occurrence appends a live line and records the
value; an identical later occurrence appends a `# DUPLICATE:` comment; a
differing later occurrence appends a `# CONFLICT:` comment followed by a
`# PREVIOUS:` comment. -/
def recordEntry (st : CatState) (k v : String) : CatState :=
  let line := format_translation k v
  match lookupSeen st.seen k with
  | some v0 =>
    if v0 = v then ⟨st.seen, st.out ++ ["# DUPLICATE: " ++ line]⟩
    else
      ⟨st.seen,
        st.out ++
          ["# CONFLICT: " ++ line, "# PREVIOUS: \"" ++ k ++ "=" ++ v0 ++ "\""]⟩
  | none => ⟨st.seen ++ [(k, v)], st.out ++ [line]⟩

/-- One iteration of the outer `for filename, translations in
translations_by_file.items()` loop: group header, the entries, a blank
separator line. -/
def recordFile (st : CatState) (file : String)
    (pairs : List (String × String)) : CatState :=
  let st1 : CatState := ⟨st.seen, st.out ++ ["# " ++ file]⟩
  let st2 := pairs.foldl (fun s p => recordEntry s p.1 p.2) st1
  ⟨st2.seen, st2.out ++ [""]⟩

/-- The catalog-building portion of `process_lua_files`, applied to the
per-file extraction results in traversal order. -/
def process_lua_files (files : List (String × List (String × String))) :
    CatState :=
  files.foldl (fun st fp => recordFile st fp.1 fp.2) ⟨[], []⟩

/-- A catalog line is live when it is neither a comment (starting with `#`)
nor the blank group separator. -/
def isLive (l : String) : Bool :=
  match l.data with
  | [] => false
  | c :: _ => !(c = '#')

/-- The live entries of an emitted line list. -/
def liveLines (out : List String) : List String := out.filter isLive

/-- First occurrences of keys not already in `ks`, in order: the specified
content of the accepted-value mapping. -/
def newFirsts (ks : List String) :
    List (String × String) → List (String × String)
  | [] => []
  | (k, v) :: ps =>
    if k ∈ ks then newFirsts ks ps else (k, v) :: newFirsts (k :: ks) ps

/-- All pairs recorded across the files, in recording order. -/
def allPairs (files : List (String × List (String × String))) :
    List (String × String) :=
  (files.map Prod.snd).flatten

/-- Well-formedness of the tail `k0` of a key `$$$/k0` for the universal
scanner theorems: non-empty, short enough that the `=` sign falls inside
the 500-character lookahead window, and free of `=` and whitespace. -/
def wfKeyTail (k0 : List Char) : Prop :=
  k0 ≠ [] ∧ k0.length ≤ 495 ∧ ∀ c ∈ k0, c ≠ '=' ∧ pyWs c = false

/-- No two adjacent characters are both spaces. -/
def noTwoSpaces : List Char → Bool
  | [] => true
  | [_] => true
  | a :: b :: t => !(a = ' ' && b = ' ') && noTwoSpaces (b :: t)

/-- Values on which the scanner is the identity: non-empty, a single line,
free of escape and placeholder triggers, with no leading or trailing space
and no two adjacent spaces (so that whitespace collapsing and stripping
change nothing). -/
def plainValue (v : List Char) : Prop :=
  v ≠ []
  ∧ (∀ c ∈ v, c ≠ '\\' ∧ c ≠ '"' ∧ c ≠ '\n' ∧ c ≠ '\t' ∧ c ≠ '\r'
      ∧ c ≠ '^' ∧ c ≠ '\x0b' ∧ c ≠ '\x0c')
  ∧ v.head? ≠ some ' ' ∧ v.getLast? ≠ some ' '
  ∧ noTwoSpaces v = true

/-- A translation key `$$$/k0`. -/
def mkKey (k0 : List Char) : List Char := '$' :: '$' :: '$' :: '/' :: k0

/-- The canonical well-formed invocation `LOC("$$$/k0=v")`. -/
def mkDoc (k0 v : List Char) : List Char :=
  'L' :: 'O' :: 'C' :: '(' :: '"' :: (mkKey k0 ++ '=' :: (v ++ ['"', ')']))

/-- A document made of consecutive well-formed invocations. -/
def mkDocs : List (List Char × List Char) → List Char
  | [] => []
  | p :: t => mkDoc p.1 p.2 ++ mkDocs t

/-- An invocation whose opening fragment never closes before the end of
the document: `LOC("$$$/k0=v` with no closing quote. -/
def mkDocNoClose (k0 v : List Char) : List Char :=
  'L' :: 'O' :: 'C' :: '(' :: '"' :: (mkKey k0 ++ '=' :: v)

/-- A lookup in the seen-map fails exactly when the key has never been
recorded. -/
theorem lookupSeen_eq_none (seen : List (String × String)) (k : String) :
    lookupSeen seen k = none ↔ k ∉ seen.map Prod.fst := by
  induction seen with
  | nil => simp [lookupSeen]
  | cons p rest ih =>
    obtain ⟨k', v'⟩ := p
    by_cases h : k' = k
    · simp [lookupSeen, h]
    · simp [lookupSeen, h, ih, Ne.symm h]

/-- A line whose first character is `#` is not live. -/
theorem isLive_of_hash (l : String) (r : List Char) (h : l.data = '#' :: r) :
    isLive l = false := by
  simp [isLive, h]

/-- Duplicate annotations are comments. -/
theorem isLive_dup_line (l : String) : isLive ("# DUPLICATE: " ++ l) = false := by
  apply isLive_of_hash _ (" DUPLICATE: ".data ++ l.data)
  rw [String.data_append]; rfl

/-- Conflict annotations are comments. -/
theorem isLive_conflict_line (l : String) :
    isLive ("# CONFLICT: " ++ l) = false := by
  apply isLive_of_hash _ (" CONFLICT: ".data ++ l.data)
  rw [String.data_append]; rfl

/-- Previous-value annotations are comments. -/
theorem isLive_prev_line (k v0 : String) :
    isLive ("# PREVIOUS: \"" ++ k ++ "=" ++ v0 ++ "\"") = false := by
  apply isLive_of_hash _
    (" PREVIOUS: \"".data ++ (k.data ++ ("=".data ++ (v0.data ++ "\"".data))))
  have h0 : "# PREVIOUS: \"".data = '#' :: " PREVIOUS: \"".data := rfl
  simp [String.data_append, h0]

/-- Group headers are comments. -/
theorem isLive_header (f : String) : isLive ("# " ++ f) = false := by
  apply isLive_of_hash _ (" ".data ++ f.data)
  rw [String.data_append]; rfl

/-- The blank group separator is not live. -/
theorem isLive_blank : isLive "" = false := by decide

/-- A formatted translation line is live (it starts with a double quote). -/
theorem isLive_format (k v : String) : isLive (format_translation k v) = true := by
  have h : (format_translation k v).data
      = '"' :: (k.data ++ "=".data ++ v.data ++ "\"".data) := by
    simp [format_translation, String.data_append]
  simp [isLive, h]

/-- Live-line filtering distributes over appending of emission lists. -/
theorem liveLines_append (a b : List String) :
    liveLines (a ++ b) = liveLines a ++ liveLines b := by
  simp [liveLines, List.filter_append]

/-- The first-occurrence list only depends on the set of already-seen keys. -/
theorem newFirsts_congr :
    ∀ (ps : List (String × String)) (ks ks' : List String),
      (∀ x, x ∈ ks ↔ x ∈ ks') → newFirsts ks ps = newFirsts ks' ps := by
  intro ps
  induction ps with
  | nil => intro ks ks' _; rfl
  | cons p rest ih =>
    intro ks ks' h
    obtain ⟨k, v⟩ := p
    by_cases hk : k ∈ ks
    · simp [newFirsts, hk, (h k).mp hk, ih ks ks' h]
    · have hk' : k ∉ ks' := fun hc => hk ((h k).mpr hc)
      simp only [newFirsts, if_neg hk, if_neg hk']
      have h2 : ∀ x, x ∈ k :: ks ↔ x ∈ k :: ks' := by
        intro x; simp [h x]
      rw [ih (k :: ks) (k :: ks') h2]

/-- Splitting the recorded pair sequence: the later part is filtered
against the keys accepted from the earlier part. -/
theorem newFirsts_append :
    ∀ (a : List (String × String)) (ks : List String)
      (b : List (String × String)),
      newFirsts ks (a ++ b)
        = newFirsts ks a
            ++ newFirsts ((newFirsts ks a).map Prod.fst ++ ks) b := by
  intro a
  induction a with
  | nil => intro ks b; simp [newFirsts]
  | cons p rest ih =>
    intro ks b
    obtain ⟨k, v⟩ := p
    by_cases hk : k ∈ ks
    · simp [newFirsts, hk, ih]
    · show newFirsts ks ((k, v) :: (rest ++ b)) = _
      simp only [newFirsts, if_neg hk, List.map_cons]
      rw [ih (k :: ks) b]
      rw [newFirsts_congr b
        (((newFirsts (k :: ks) rest).map Prod.fst) ++ k :: ks)
        ((k :: (newFirsts (k :: ks) rest).map Prod.fst) ++ ks)
        (by intro x; simp; tauto)]
      simp

/-- Accepted keys are distinct and disjoint from the already-seen keys. -/
theorem newFirsts_nodup :
    ∀ (ps : List (String × String)) (ks : List String),
      ((newFirsts ks ps).map Prod.fst).Nodup
        ∧ ∀ x ∈ (newFirsts ks ps).map Prod.fst, x ∉ ks := by
  intro ps
  induction ps with
  | nil => intro ks; simp [newFirsts]
  | cons p rest ih =>
    intro ks
    obtain ⟨k, v⟩ := p
    by_cases hk : k ∈ ks
    · simpa [newFirsts, hk] using ih ks
    · obtain ⟨h1, h2⟩ := ih (k :: ks)
      refine ⟨?_, ?_⟩
      · simp only [newFirsts, if_neg hk, List.map_cons, List.nodup_cons]
        exact ⟨fun hc => (h2 k hc) (List.mem_cons_self k ks), h1⟩
      · intro x hx
        simp only [newFirsts, if_neg hk, List.map_cons, List.mem_cons] at hx
        rcases hx with rfl | hx
        · exact hk
        · exact fun hc => (h2 x hx) (List.mem_cons_of_mem _ hc)

/-- A list of pairs with distinct keys matches any key at most once. -/
theorem filter_key_len_le_one (l : List (String × String))
    (h : (l.map Prod.fst).Nodup) (k : String) :
    (l.filter (fun p => p.1 = k)).length ≤ 1 := by
  induction l with
  | nil => simp
  | cons p rest ih =>
    obtain ⟨k', v'⟩ := p
    simp only [List.map_cons, List.nodup_cons] at h
    by_cases hk : k' = k
    · subst hk
      have : rest.filter (fun p => p.1 = k') = [] := by
        apply List.filter_eq_nil_iff.mpr
        intro p hp hc
        exact h.1 (List.mem_map.mpr ⟨p, hp, by simpa using hc⟩)
      simp [List.filter_cons, this]
    · simpa [List.filter_cons, hk] using ih h.2

/-- Folding `recordEntry` over a pair sequence: the seen-map gains exactly
the first occurrences of new keys, and the live lines gain exactly one
formatted line per such first occurrence; repeated keys contribute only
comment lines. -/
theorem foldEntries_spec :
    ∀ (ps : List (String × String)) (st : CatState),
      (ps.foldl (fun s p => recordEntry s p.1 p.2) st).seen
          = st.seen ++ newFirsts (st.seen.map Prod.fst) ps
        ∧ liveLines (ps.foldl (fun s p => recordEntry s p.1 p.2) st).out
          = liveLines st.out
              ++ (newFirsts (st.seen.map Prod.fst) ps).map
                  (fun p => format_translation p.1 p.2) := by
  intro ps
  induction ps with
  | nil => intro st; simp [newFirsts]
  | cons p rest ih =>
    intro st
    obtain ⟨k, v⟩ := p
    simp only [List.foldl_cons]
    cases hl : lookupSeen st.seen k with
    | none =>
      have hk : k ∉ st.seen.map Prod.fst := (lookupSeen_eq_none _ _).mp hl
      have hre : recordEntry st k v
          = ⟨st.seen ++ [(k, v)], st.out ++ [format_translation k v]⟩ := by
        simp [recordEntry, hl]
      rw [hre]
      obtain ⟨ih1, ih2⟩ :=
        ih ⟨st.seen ++ [(k, v)], st.out ++ [format_translation k v]⟩
      have hcong :
          newFirsts ((st.seen ++ [(k, v)]).map Prod.fst) rest
            = newFirsts (k :: st.seen.map Prod.fst) rest := by
        apply newFirsts_congr
        intro x; simp; tauto
      constructor
      · rw [ih1]
        simp only [newFirsts, if_neg hk, hcong]
        simp
      · rw [ih2]
        simp only [newFirsts, if_neg hk, hcong, liveLines_append]
        have : liveLines [format_translation k v] = [format_translation k v] := by
          simp [liveLines, List.filter, isLive_format]
        simp [this]
    | some v0 =>
      have hk : k ∈ st.seen.map Prod.fst := by
        by_contra hc
        rw [← lookupSeen_eq_none] at hc
        rw [hl] at hc
        exact Option.noConfusion hc
      by_cases hv : v0 = v
      · have hre : recordEntry st k v
            = ⟨st.seen, st.out ++ ["# DUPLICATE: " ++ format_translation k v]⟩ := by
          simp [recordEntry, hl, hv]
        rw [hre]
        obtain ⟨ih1, ih2⟩ :=
          ih ⟨st.seen, st.out ++ ["# DUPLICATE: " ++ format_translation k v]⟩
        have hdead : liveLines ["# DUPLICATE: " ++ format_translation k v] = [] := by
          simp [liveLines, List.filter, isLive_dup_line]
        constructor
        · rw [ih1]; simp [newFirsts, hk]
        · rw [ih2]; simp [newFirsts, hk, liveLines_append, hdead]
      · have hre : recordEntry st k v
            = ⟨st.seen,
                st.out ++ ["# CONFLICT: " ++ format_translation k v,
                  "# PREVIOUS: \"" ++ k ++ "=" ++ v0 ++ "\""]⟩ := by
          simp [recordEntry, hl, hv]
        rw [hre]
        obtain ⟨ih1, ih2⟩ :=
          ih ⟨st.seen,
            st.out ++ ["# CONFLICT: " ++ format_translation k v,
              "# PREVIOUS: \"" ++ k ++ "=" ++ v0 ++ "\""]⟩
        have hdead : liveLines ["# CONFLICT: " ++ format_translation k v,
            "# PREVIOUS: \"" ++ k ++ "=" ++ v0 ++ "\""] = [] := by
          simp [liveLines, List.filter, isLive_conflict_line, isLive_prev_line]
        constructor
        · rw [ih1]; simp [newFirsts, hk]
        · rw [ih2]; simp [newFirsts, hk, liveLines_append, hdead]

/-- Folding `recordFile` over the per-file results: across file groups the
seen-map still gains exactly the global first occurrences, and the live
lines are exactly one formatted line per first occurrence, since headers
and blank separators are not live. -/
theorem processFold_spec :
    ∀ (files : List (String × List (String × String))) (st : CatState),
      (files.foldl (fun s fp => recordFile s fp.1 fp.2) st).seen
          = st.seen ++ newFirsts (st.seen.map Prod.fst) (allPairs files)
        ∧ liveLines (files.foldl (fun s fp => recordFile s fp.1 fp.2) st).out
          = liveLines st.out
              ++ (newFirsts (st.seen.map Prod.fst) (allPairs files)).map
                  (fun p => format_translation p.1 p.2) := by
  intro files
  induction files with
  | nil => intro st; simp [allPairs, newFirsts]
  | cons fp files' ih =>
    intro st
    obtain ⟨f, ps⟩ := fp
    simp only [List.foldl_cons]
    obtain ⟨e1, e2⟩ := foldEntries_spec ps ⟨st.seen, st.out ++ ["# " ++ f]⟩
    have hrf : recordFile st f ps
        = ⟨st.seen ++ newFirsts (st.seen.map Prod.fst) ps,
           (ps.foldl (fun s p => recordEntry s p.1 p.2)
             ⟨st.seen, st.out ++ ["# " ++ f]⟩).out ++ [""]⟩ := by
      simp only [recordFile]
      rw [e1]
    rw [hrf]
    obtain ⟨i1, i2⟩ := ih ⟨st.seen ++ newFirsts (st.seen.map Prod.fst) ps,
      (ps.foldl (fun s p => recordEntry s p.1 p.2)
        ⟨st.seen, st.out ++ ["# " ++ f]⟩).out ++ [""]⟩
    have hap : allPairs ((f, ps) :: files') = ps ++ allPairs files' := by
      simp [allPairs]
    rw [hap, newFirsts_append ps (st.seen.map Prod.fst) (allPairs files')]
    have hcong :
        newFirsts ((st.seen ++ newFirsts (st.seen.map Prod.fst) ps).map Prod.fst)
            (allPairs files')
          = newFirsts
              ((newFirsts (st.seen.map Prod.fst) ps).map Prod.fst
                ++ st.seen.map Prod.fst) (allPairs files') := by
      apply newFirsts_congr
      intro x; simp; tauto
    constructor
    · rw [i1, hcong]
      simp
    · rw [i2, hcong]
      have hout : liveLines ((ps.foldl (fun s p => recordEntry s p.1 p.2)
          ⟨st.seen, st.out ++ ["# " ++ f]⟩).out ++ [""])
          = liveLines st.out
              ++ (newFirsts (st.seen.map Prod.fst) ps).map
                  (fun p => format_translation p.1 p.2) := by
        rw [liveLines_append, e2, liveLines_append]
        simp [liveLines, List.filter, isLive_header, isLive_blank]
      rw [hout]
      simp

/-- C2: the catalog maps each key to at most one accepted value — the first
occurrence of a key creates the unique live entry and fixes the canonical
value, every later occurrence contributes only comment lines, and recording
the identical triple twice yields exactly one live entry and one DUPLICATE
annotation. -/
theorem claim_C2 :
    (∀ files : List (String × List (String × String)),
      (process_lua_files files).seen = newFirsts [] (allPairs files)
      ∧ ((process_lua_files files).seen.map Prod.fst).Nodup
      ∧ (∀ k, ((process_lua_files files).seen.filter
          (fun p => p.1 = k)).length ≤ 1)
      ∧ liveLines (process_lua_files files).out
          = (newFirsts [] (allPairs files)).map
              (fun p => format_translation p.1 p.2))
    ∧ process_lua_files [("a.lua", [("$$$/k", "V"), ("$$$/k", "V")])]
        = ⟨[("$$$/k", "V")],
           ["# a.lua", "\"$$$/k=V\"", "# DUPLICATE: \"$$$/k=V\"", ""]⟩ := by
  constructor
  · intro files
    obtain ⟨h1, h2⟩ := processFold_spec files ⟨[], []⟩
    have hseen : (process_lua_files files).seen = newFirsts [] (allPairs files) := by
      simpa [process_lua_files] using h1
    refine ⟨hseen, ?_, ?_, ?_⟩
    · rw [hseen]; exact (newFirsts_nodup (allPairs files) []).1
    · intro k
      rw [hseen]
      exact filter_key_len_le_one _ ((newFirsts_nodup (allPairs files) []).1) k
    · simpa [process_lua_files, liveLines] using h2
  · decide

/-- C8 counterexample: recording `$$$/k` with value `A` and then with the
differing value `B` does not append the single claimed line
`# CONFLICT: "$$$/k=B" (previous: A)`; the code instead emits a
`# CONFLICT:` line followed by a separate `# PREVIOUS:` line. -/
theorem claim_C8_counterexample :
    (process_lua_files [("f.lua", [("$$$/k", "A"), ("$$$/k", "B")])]).out
      = ["# f.lua", "\"$$$/k=A\"", "# CONFLICT: \"$$$/k=B\"",
         "# PREVIOUS: \"$$$/k=A\"", ""]
    ∧ "# CONFLICT: \"$$$/k=B\" (previous: A)"
        ∉ (process_lua_files [("f.lua", [("$$$/k", "A"), ("$$$/k", "B")])]).out := by
  exact ⟨by decide, by decide⟩

/-- C8 (amended): when a key is recorded again with a value differing from
the first-seen one, the catalog appends exactly two comment lines — a
conflict line `# CONFLICT: "<key>=<value>"` immediately followed by
`# PREVIOUS: "<key>=<firstValue>"` — and the accepted mapping is
unchanged. -/
theorem claim_C8_amended (st : CatState) (k v v0 : String)
    (h1 : lookupSeen st.seen k = some v0) (h2 : v0 ≠ v) :
    recordEntry st k v
      = ⟨st.seen,
         st.out ++ ["# CONFLICT: " ++ format_translation k v,
           "# PREVIOUS: \"" ++ k ++ "=" ++ v0 ++ "\""]⟩ := by
  simp [recordEntry, h1, h2]

/-- C8 witness: the amended conflict behaviour at a concrete state. -/
theorem claim_C8_witness :
    recordEntry ⟨[("$$$/k", "A")], []⟩ "$$$/k" "B"
      = ⟨[("$$$/k", "A")],
         ["# CONFLICT: \"$$$/k=B\"", "# PREVIOUS: \"$$$/k=A\""]⟩ := by
  rw [claim_C8_amended ⟨[("$$$/k", "A")], []⟩ "$$$/k" "B" "A" (by decide)
    (by decide)]
  decide

/-- C7: the module docstring of `translation.py` documents the shorthand
form `LOC "$$$/namespace/key=Translated Text"`, but the call-site regex
`LOC\s*\(\s*"` requires a parenthesis, so the shorthand document yields no
pair at all. -/
theorem claim_C7_bug :
    extract_loc_strings "LOC \"$$$/a/b=Text\"".data = [] := by
  decide

/-- C5 counterexample: a call site whose opening fragment never closes
still yields a pair — the partial text `Hi` is emitted, not discarded. -/
theorem claim_C5_counterexample :
    extract_loc_strings "LOC(\"$$$/k=Hi".data
      = [("$$$/k".data, "Hi".data)]
    ∧ extract_loc_strings "LOC(\"$$$/k=Hi".data ≠ [] := by
  exact ⟨by decide, by decide⟩

/-- C6 counterexample: the key pattern `(\$\$\$/[^=]+)=` accepts interior
whitespace, so the scanner yields a key containing a space. -/
theorem claim_C6_counterexample :
    extract_loc_strings "LOC(\"$$$/a b=T\")".data
      = [("$$$/a b".data, "T".data)]
    ∧ ' ' ∈ "$$$/a b".data := by
  exact ⟨by decide, by decide⟩

/-- Characters produced by whitespace collapsing are spaces or input
characters. -/
theorem mem_collapseFuel :
    ∀ (f : Nat) (l : List Char) (c : Char),
      c ∈ collapseFuel f l → c = ' ' ∨ c ∈ l := by
  intro f
  induction f with
  | zero => intro l c h; exact Or.inr (by simpa [collapseFuel] using h)
  | succ f ih =>
    intro l c h
    cases l with
    | nil => simp [collapseFuel] at h
    | cons c' cs =>
      by_cases hc : isHT c'
      · simp only [collapseFuel, if_pos hc, List.mem_cons] at h
        rcases h with rfl | h
        · exact Or.inl rfl
        · rcases ih _ _ h with h1 | h1
          · exact Or.inl h1
          · exact Or.inr (List.mem_cons_of_mem _
              ((cs.dropWhile_sublist isHT).mem h1))
      · simp only [collapseFuel, if_neg hc, List.mem_cons] at h
        rcases h with rfl | h
        · exact Or.inr (List.mem_cons_self _ _)
        · rcases ih _ _ h with h1 | h1
          · exact Or.inl h1
          · exact Or.inr (List.mem_cons_of_mem _ h1)

/-- Characters produced by placeholder rewriting are braces or input
characters. -/
theorem mem_substFuel :
    ∀ (f : Nat) (l : List Char) (c : Char),
      c ∈ substFuel f l → c ∈ l ∨ c = '\x7b' ∨ c = '\x7d' := by
  intro f
  induction f with
  | zero => intro l c h; exact Or.inl (by simpa [substFuel] using h)
  | succ f ih =>
    intro l c h
    cases l with
    | nil => simp [substFuel] at h
    | cons c' cs =>
      by_cases hc : c' = '^'
      · by_cases hd : (cs.takeWhile Char.isDigit).isEmpty
        · simp only [substFuel, hc, if_pos, hd, if_pos, List.mem_cons] at h
          rcases h with rfl | h
          · exact Or.inl (by simp [hc])
          · rcases ih _ _ h with h1 | h1
            · exact Or.inl (List.mem_cons_of_mem _ h1)
            · exact Or.inr h1
        · simp only [substFuel, hc, if_pos, hd, if_neg, List.mem_cons,
            List.mem_append, Bool.false_eq_true, not_false_eq_true] at h
          rcases h with rfl | h | h
          · exact Or.inr (Or.inl rfl)
          · exact Or.inl
              (List.mem_cons_of_mem _ ((cs.takeWhile_sublist Char.isDigit).mem h))
          · rcases h with rfl | h
            · exact Or.inr (Or.inr rfl)
            · rcases ih _ _ h with h1 | h1
              · exact Or.inl (List.mem_cons_of_mem _
                  ((cs.dropWhile_sublist Char.isDigit).mem h1))
              · exact Or.inr h1
      · simp only [substFuel, if_neg hc, List.mem_cons] at h
        rcases h with rfl | h
        · exact Or.inl (List.mem_cons_self _ _)
        · rcases ih _ _ h with h1 | h1
          · exact Or.inl (List.mem_cons_of_mem _ h1)
          · exact Or.inr h1

/-- Stripping only removes characters. -/
theorem mem_stripList (l : List Char) (c : Char) (h : c ∈ stripList l) :
    c ∈ l := by
  simp only [stripList, List.mem_reverse] at h
  have h1 := (((l.dropWhile pyWs).reverse).dropWhile_sublist pyWs).mem h
  rw [List.mem_reverse] at h1
  exact (l.dropWhile_sublist pyWs).mem h1

/-- Lines produced by splitting on newlines contain no newline. -/
theorem splitOnNl_no_nl :
    ∀ (v : List Char) (l : List Char), l ∈ splitOnNl v → '\n' ∉ l := by
  intro v
  induction v with
  | nil =>
    intro l h
    simp only [splitOnNl, List.mem_singleton] at h
    simp [h]
  | cons c cs ih =>
    intro l h
    by_cases hc : c = '\n'
    · simp only [splitOnNl, if_pos hc, List.mem_cons] at h
      rcases h with rfl | h
      · simp
      · exact ih l h
    · simp only [splitOnNl, if_neg hc] at h
      cases hs : splitOnNl cs with
      | nil =>
        rw [hs] at h
        simp only [List.mem_singleton] at h
        subst h
        intro hmem
        exact hc (List.mem_singleton.mp hmem).symm
      | cons m ms =>
        rw [hs] at h
        simp only [List.mem_cons] at h
        rcases h with rfl | h
        · intro hmem
          rcases List.mem_cons.mp hmem with hh | hh
          · exact hc hh.symm
          · exact ih m (hs ▸ List.mem_cons_self m ms) hh
        · exact ih l (hs ▸ List.mem_cons_of_mem m h)

/-- The rejoin separator introduces no newline. -/
theorem no_nl_intercalate :
    ∀ (ls : List (List Char)), (∀ l ∈ ls, '\n' ∉ l) →
      '\n' ∉ List.intercalate nnSep ls := by
  intro ls
  induction ls with
  | nil => intro _; simp [List.intercalate]
  | cons a t ih =>
    intro h
    cases t with
    | nil =>
      have : List.intercalate nnSep [a] = a := by simp [List.intercalate]
      rw [this]
      exact h a (List.mem_cons_self a [])
    | cons b t' =>
      have hstep : List.intercalate nnSep (a :: b :: t')
          = a ++ nnSep ++ List.intercalate nnSep (b :: t') := by
        simp [List.intercalate, List.intersperse]
      rw [hstep]
      intro hmem
      rcases List.mem_append.mp hmem with hm | hm
      · rcases List.mem_append.mp hm with hm' | hm'
        · exact h a (List.mem_cons_self a _) hm'
        · revert hm'
          decide
      · exact ih (fun l hl => h l (List.mem_cons_of_mem a hl)) hm

/-- Every cleaned line is newline-free. -/
theorem cleanedLines_no_nl (v : List Char) (l : List Char)
    (h : l ∈ cleanedLines v) : '\n' ∉ l := by
  simp only [cleanedLines, List.mem_filter, List.mem_map] at h
  obtain ⟨⟨m, hm, rfl⟩, _⟩ := h
  intro hmem
  have h1 := mem_stripList _ _ hmem
  rcases mem_collapseFuel _ _ _ h1 with h2 | h2
  · exact absurd h2 (by decide)
  · exact splitOnNl_no_nl _ m hm h2

/-- `clean_value` agrees with the uniform rejoin-by-intercalation reading
of the specification on every input. -/
theorem clean_value_eq_intercalate (v : List Char) :
    clean_value v = List.intercalate nnSep (cleanedLines v) := by
  unfold clean_value
  rcases hcl : cleanedLines v with _ | ⟨a, _ | ⟨b, t⟩⟩
  · simp [List.intercalate]
  · simp [List.intercalate]
  · rfl

/-- C9: value normalization splits on newlines, trims and collapses
horizontal whitespace per line, drops empty lines, keeps a single line
as-is, and rejoins several lines with the literal four-character text
backslash-n-backslash-n — never a real newline character. -/
theorem claim_C9 :
    (∀ v : List Char, clean_value v = List.intercalate nnSep (cleanedLines v))
    ∧ (∀ v : List Char, '\n' ∉ clean_value v)
    ∧ nnSep = ['\\', 'n', '\\', 'n']
    ∧ clean_value "Line1\nLine2".data = "Line1\\n\\nLine2".data
    ∧ clean_value " x \t y \nA\n \n\nB".data = "x y\\n\\nA\\n\\nB".data
    ∧ clean_value "Single".data = "Single".data := by
  refine ⟨clean_value_eq_intercalate, ?_, by decide, by decide, by decide,
    by decide⟩
  intro v
  rw [clean_value_eq_intercalate]
  exact no_nl_intercalate (cleanedLines v) (cleanedLines_no_nl v)

/-- C4 counterexample: in a single-quoted fragment the escape `\t` is not
resolved to a tab — the scanner emits the two raw characters backslash and
`t` (so the cleaned value is `a\tb` with a literal backslash), whereas
resolving `\t` to a tab would have produced `a b` after whitespace
collapsing. -/
theorem claim_C4_counterexample :
    extract_loc_strings
        ("LOC(\"$$$/k=\" .. ".data ++ [squote, 'a', '\\', 't', 'b', squote, ')'])
      = [("$$$/k".data, ['a', '\\', 't', 'b'])]
    ∧ ['a', '\\', 't', 'b'] ≠ ['a', '\t', 'b']
    ∧ ['a', '\\', 't', 'b'] ≠ "a b".data := by
  exact ⟨by decide, by decide, by decide⟩

/-- Dropping by a predicate never lengthens a list. -/
theorem dropWhile_len_le (p : Char → Bool) (l : List Char) :
    (l.dropWhile p).length ≤ l.length :=
  (l.dropWhile_sublist p).length_le

/-- Dropping stops immediately at a non-matching head. -/
theorem dropWhile_cons_false (p : Char → Bool) (c : Char) (cs : List Char)
    (h : p c = false) : (c :: cs).dropWhile p = c :: cs := by
  simp [List.dropWhile, h]

/-- Dropping is the identity when the head does not match. -/
theorem dropWhile_id_of_head (p : Char → Bool) (l : List Char)
    (h : ∀ c, l.head? = some c → p c = false) : l.dropWhile p = l := by
  cases l with
  | nil => rfl
  | cons c cs => exact dropWhile_cons_false p c cs (h c rfl)

/-- Stripping is the identity when neither end is whitespace. -/
theorem stripList_id (l : List Char)
    (hh : ∀ c, l.head? = some c → pyWs c = false)
    (hl : ∀ c, l.getLast? = some c → pyWs c = false) : stripList l = l := by
  unfold stripList
  rw [dropWhile_id_of_head pyWs l hh]
  rw [dropWhile_id_of_head pyWs l.reverse
    (fun c hc => hl c (by rwa [List.head?_reverse] at hc))]
  exact List.reverse_reverse l

/-- Placeholder rewriting is the identity on caret-free text. -/
theorem substFuel_id :
    ∀ (f : Nat) (v : List Char), v.length < f → '^' ∉ v →
      substFuel f v = v := by
  intro f
  induction f with
  | zero => intro v h; omega
  | succ f ih =>
    intro v h hc
    cases v with
    | nil => rfl
    | cons c cs =>
      have hcne : ¬(c = '^') := fun he => hc (he ▸ List.mem_cons_self c cs)
      simp only [substFuel, if_neg hcne]
      rw [ih cs (by simpa using Nat.lt_of_succ_lt_succ h)
        (fun hm => hc (List.mem_cons_of_mem c hm))]

/-- Newline splitting of a newline-free value is a single line. -/
theorem splitOnNl_id (v : List Char) (h : '\n' ∉ v) : splitOnNl v = [v] := by
  induction v with
  | nil => rfl
  | cons c cs ih =>
    have hcne : ¬(c = '\n') := fun he => h (he ▸ List.mem_cons_self c cs)
    have ht : splitOnNl cs = [cs] := ih (fun hm => h (List.mem_cons_of_mem c hm))
    simp [splitOnNl, hcne, ht]

/-- The adjacency condition restricts to the tail. -/
theorem noTwoSpaces_tail (c : Char) (cs : List Char)
    (h : noTwoSpaces (c :: cs) = true) : noTwoSpaces cs = true := by
  cases cs with
  | nil => rfl
  | cons d t =>
    simp only [noTwoSpaces, Bool.and_eq_true] at h
    exact h.2

/-- Adjacent characters at the head cannot both be spaces. -/
theorem noTwoSpaces_head (c d : Char) (t : List Char)
    (h : noTwoSpaces (c :: d :: t) = true) : ¬(c = ' ' ∧ d = ' ') := by
  simp only [noTwoSpaces, Bool.and_eq_true] at h
  intro hcd
  have := h.1
  simp [hcd.1, hcd.2] at this

/-- Whitespace collapsing is the identity on tab-free text without two
adjacent spaces. -/
theorem collapseFuel_id :
    ∀ (f : Nat) (v : List Char), v.length < f → (∀ c ∈ v, c ≠ '\t') →
      noTwoSpaces v = true →
      collapseFuel f v = v := by
  intro f
  induction f with
  | zero => intro v h; omega
  | succ f ih =>
    intro v h htab hch
    cases v with
    | nil => rfl
    | cons c cs =>
      have hlen : cs.length < f := by simpa using Nat.lt_of_succ_lt_succ h
      have htab' : ∀ c' ∈ cs, c' ≠ '\t' :=
        fun c' hm => htab c' (List.mem_cons_of_mem c hm)
      by_cases hsp : c = ' '
      · have hht : isHT c = true := by simp [isHT, hsp]
        have hdw : cs.dropWhile isHT = cs := by
          cases cs with
          | nil => rfl
          | cons d cs' =>
            have hd1 : d ≠ '\t' := htab d (by simp)
            have hd2 : d ≠ ' ' := by
              intro he
              exact noTwoSpaces_head c d cs' hch ⟨hsp, he⟩
            exact dropWhile_cons_false isHT d cs' (by simp [isHT, hd1, hd2])
        simp only [collapseFuel, hht, if_pos, hdw]
        rw [ih cs hlen htab' (noTwoSpaces_tail c cs hch), hsp]
      · have hht : isHT c = false := by
          simp [isHT, hsp, htab c (List.mem_cons_self c cs)]
        simp only [collapseFuel, hht, Bool.false_eq_true, if_neg,
          not_false_eq_true]
        rw [ih cs hlen htab' (noTwoSpaces_tail c cs hch)]

/-- Cleaning is the identity on plain values. -/
theorem clean_value_plain (v : List Char) (h : plainValue v) :
    clean_value v = v := by
  obtain ⟨hne, hch, hhd, hlast, hchain⟩ := h
  have h1 : substCarets v = v := by
    apply substFuel_id _ v (Nat.lt_succ_self _)
    intro hm
    exact (hch '^' hm).2.2.2.2.2.1 rfl
  have h2 : splitOnNl v = [v] := by
    apply splitOnNl_id
    intro hm
    exact (hch '\n' hm).2.2.1 rfl
  have h3 : collapseWs v = v := by
    apply collapseFuel_id _ v (Nat.lt_succ_self _) _ hchain
    intro c hm
    exact (hch c hm).2.2.2.1
  have h4 : stripList v = v := by
    apply stripList_id
    · intro c hc
      have hm : c ∈ v := List.mem_of_mem_head? hc
      have hsp : ¬(c = ' ') := fun he => hhd (he ▸ hc)
      obtain ⟨_, _, h3', h4', h5', _, h7', h8'⟩ := hch c hm
      simp [pyWs, hsp, h3', h4', h5', h7', h8']
    · intro c hc
      have hm : c ∈ v := by
        have hm' : c ∈ v.getLast? := hc
        obtain ⟨hne', heq⟩ := List.mem_getLast?_eq_getLast hm'
        rw [heq]
        exact List.getLast_mem hne'
      have hsp : ¬(c = ' ') := fun he => hlast (he ▸ hc)
      obtain ⟨_, _, h3', h4', h5', _, h7', h8'⟩ := hch c hm
      simp [pyWs, hsp, h3', h4', h5', h7', h8']
  have hcl : cleanedLines v = [v] := by
    unfold cleanedLines
    rw [h1, h2]
    simp only [List.map_cons, List.map_nil, h3, h4]
    have hemp : v.isEmpty = false := by
      cases v
      · exact absurd rfl hne
      · rfl
    simp [List.filter, hemp]
  unfold clean_value
  rw [hcl]

/-- The main loop consumes a run of plain characters (no backslash, no
double quote) one by one into the pending accumulator. -/
theorem fragLoop_plain :
    ∀ (v : List Char) (f : Nat) (rest : List Char) (p : List (List Char))
      (a : List Char), (∀ c ∈ v, c ≠ '\\' ∧ c ≠ '"') →
      fragLoop (v.length + f) false (v ++ rest) p a
        = fragLoop f false rest p (a ++ v) := by
  intro v
  induction v with
  | nil => intro f rest p a _; simp
  | cons c v' ih =>
    intro f rest p a h
    have hc := h c (List.mem_cons_self c v')
    have harith : (c :: v').length + f = (v'.length + f) + 1 := by
      simp
      omega
    rw [harith]
    show fragLoop ((v'.length + f) + 1) false (c :: (v' ++ rest)) p a = _
    simp only [fragLoop, if_neg hc.1, if_neg hc.2]
    rw [ih f rest p (a ++ [c]) (fun d hd => h d (List.mem_cons_of_mem c hd))]
    simp

/-- On a closing double quote followed (after whitespace) by `,` or `)`,
the main loop stops with the accumulator flushed and the cursor on that
delimiter. -/
theorem fragLoop_quote_end (f : Nat) (rest : List Char) (p : List (List Char))
    (a : List Char) (d : Char) (r2 : List Char)
    (hdw : rest.dropWhile wsLoop = d :: r2) (hd : d = ',' ∨ d = ')') :
    fragLoop (f + 1) false ('"' :: rest) p a = (pushChars p a, d :: r2) := by
  have h1 : ¬(('"' : Char) = '\\') := by decide
  have h2 : ('"' : Char) = '"' := rfl
  simp only [fragLoop, if_neg h1, if_pos h2, hdw]
  rcases hd with rfl | rfl <;> simp

/-- A candidate that does not start with `L` is not a call-site match. -/
theorem locHead_eq_none (c : Char) (cs : List Char) (hc : c ≠ 'L') :
    locHead (c :: cs) = none := by
  rw [locHead.eq_def]
  split
  · next heq => injection heq with h1 _; exact absurd h1 hc
  · rfl

/-- A call-site match consumes at least the five characters `LOC("`. -/
theorem locHead_len (l r : List Char) (h : locHead l = some r) :
    r.length + 5 ≤ l.length := by
  rw [locHead.eq_def] at h
  split at h
  · next rest =>
    split at h
    · next r2 heq2 =>
      split at h
      · next r4 heq4 =>
        injection h with h'
        subst h'
        have l1 := dropWhile_len_le pyWs rest
        rw [heq2] at l1
        have l2 := dropWhile_len_le pyWs r2
        rw [heq4] at l2
        simp only [List.length_cons] at l1 l2 ⊢
        omega
      · exact absurd h (by simp)
    · exact absurd h (by simp)
  · exact absurd h (by simp)

/-- A successful search consumes at least five characters. -/
theorem locSearch_len :
    ∀ (s s1 : List Char), locSearch s = some s1 → s1.length + 5 ≤ s.length := by
  intro s
  induction s with
  | nil => intro s1 h; simp [locSearch] at h
  | cons c cs ih =>
    intro s1 h
    simp only [locSearch] at h
    cases hlh : locHead (c :: cs) with
    | some r =>
      rw [hlh] at h
      injection h with h'
      subst h'
      exact locHead_len _ _ hlh
    | none =>
      rw [hlh] at h
      have := ih s1 h
      simp only [List.length_cons]
      omega

/-- Searching skips over a prefix containing no `L`. -/
theorem locSearch_append_noL :
    ∀ (a s : List Char), (∀ c ∈ a, c ≠ 'L') →
      locSearch (a ++ s) = locSearch s := by
  intro a
  induction a with
  | nil => intro s _; rfl
  | cons c a' ih =>
    intro s h
    show locSearch (c :: (a' ++ s)) = _
    simp only [locSearch, locHead_eq_none c _ (h c (List.mem_cons_self c a'))]
    exact ih s (fun d hd => h d (List.mem_cons_of_mem c hd))

/-- Text without `L` contains no call site. -/
theorem locSearch_eq_none (l : List Char) (h : ∀ c ∈ l, c ≠ 'L') :
    locSearch l = none := by
  have := locSearch_append_noL l [] h
  simpa using this

/-- The scan of an empty document is empty, whatever the fuel. -/
theorem scanLoop_nil : ∀ f : Nat, scanLoop f [] = [] := by
  intro f
  cases f with
  | zero => rfl
  | succ f => simp [scanLoop, locSearch]

/-- One scan step depends on the document only through the search result. -/
theorem scanLoop_eq_of_search_eq (f0 : Nat) (x y : List Char)
    (h : locSearch x = locSearch y) :
    scanLoop (f0 + 1) x = scanLoop (f0 + 1) y := by
  simp only [scanLoop, h]

/-- The scan result does not depend on the fuel once the fuel exceeds the
document length. -/
theorem scanLoop_congr :
    ∀ (N : Nat) (s : List Char) (f f' : Nat), s.length ≤ N →
      s.length < f → s.length < f' → scanLoop f s = scanLoop f' s := by
  intro N
  induction N with
  | zero =>
    intro s f f' hN hf hf'
    have hs : s = [] := List.length_eq_zero.mp (Nat.le_zero.mp hN)
    subst hs
    rw [scanLoop_nil, scanLoop_nil]
  | succ N ih =>
    intro s f f' hN hf hf'
    obtain ⟨f0, rfl⟩ : ∃ f0, f = f0 + 1 := ⟨f - 1, by omega⟩
    obtain ⟨f1, rfl⟩ : ∃ f1, f' = f1 + 1 := ⟨f' - 1, by omega⟩
    cases hls : locSearch s with
    | none => simp only [scanLoop, hls]
    | some s1 =>
      have hlen1 : s1.length + 5 ≤ s.length := locSearch_len _ _ hls
      cases hkm : keyMatch (s1.take 500) with
      | none =>
        simp only [scanLoop, hls, hkm]
        exact ih s1 f0 f1 (by omega) (by omega) (by omega)
      | some gk =>
        obtain ⟨g, klen⟩ := gk
        have hdlen : (s1.drop klen).length ≤ s1.length := by
          simp [List.length_drop]
        have hddlen : ((s1.drop klen).drop 1).length ≤ s1.length := by
          simp only [List.length_drop]
          omega
        cases hrv : (extract_complete_value (s1.drop klen)).1 with
        | some v =>
          by_cases hve : v.isEmpty
          · simp only [scanLoop, hls, hkm, hrv, if_pos hve]
            exact ih _ f0 f1 (by omega) (by omega) (by omega)
          · by_cases hlt : (extract_complete_value (s1.drop klen)).2.length
                < (s1.drop klen).length
            · have hxlen : (extract_complete_value (s1.drop klen)).2.length
                  ≤ s1.length := by omega
              simp only [scanLoop, hls, hkm, hrv, if_neg hve, if_pos hlt]
              congr 1
              exact ih _ f0 f1 (by omega) (by omega) (by omega)
            · simp only [scanLoop, hls, hkm, hrv, if_neg hve, if_neg hlt]
              congr 1
              exact ih _ f0 f1 (by omega) (by omega) (by omega)
        | none =>
          simp only [scanLoop, hls, hkm, hrv]
          exact ih _ f0 f1 (by omega) (by omega) (by omega)

/-- Scanning a document with an `L`-free garbage prefix equals scanning
the rest, for any sufficient fuels. -/
theorem scanLoop_append_noL (a s : List Char) (f f' : Nat)
    (ha : ∀ c ∈ a, c ≠ 'L') (hf : a.length + s.length < f)
    (hf' : s.length < f') : scanLoop f (a ++ s) = scanLoop f' s := by
  obtain ⟨f0, rfl⟩ : ∃ f0, f = f0 + 1 := ⟨f - 1, by omega⟩
  rw [scanLoop_eq_of_search_eq f0 (a ++ s) s (locSearch_append_noL a s ha)]
  exact scanLoop_congr s.length s (f0 + 1) f' le_rfl (by omega) hf'

/-- Splitting a list at its first `=`. -/
theorem takeDrop_eq (k0 : List Char) (w : List Char)
    (h : ∀ c ∈ k0, c ≠ '=') :
    (k0 ++ '=' :: w).takeWhile (fun c => !(c = '=')) = k0
    ∧ (k0 ++ '=' :: w).dropWhile (fun c => !(c = '=')) = '=' :: w := by
  induction k0 with
  | nil => constructor <;> simp [List.takeWhile, List.dropWhile]
  | cons c k0' ih =>
    have hc : ¬(c = '=') := h c (List.mem_cons_self c k0')
    obtain ⟨ih1, ih2⟩ := ih (fun d hd => h d (List.mem_cons_of_mem c hd))
    constructor
    · show ((c :: (k0' ++ '=' :: w)).takeWhile fun c => !(c = '=')) = c :: k0'
      simp [List.takeWhile, hc, ih1]
    · show ((c :: (k0' ++ '=' :: w)).dropWhile fun c => !(c = '=')) = '=' :: w
      simp [List.dropWhile, hc, ih2]

/-- The key regex matches a well-formed `$$$/key=` prefix, returning the
key group and the offset just past the `=`. -/
theorem keyMatch_mk (k0 w : List Char) (hne : k0 ≠ [])
    (h : ∀ c ∈ k0, c ≠ '=') :
    keyMatch ('$' :: '$' :: '$' :: '/' :: (k0 ++ '=' :: w))
      = some (mkKey k0, 4 + k0.length + 1) := by
  obtain ⟨h1, h2⟩ := takeDrop_eq k0 w h
  have hemp : k0.isEmpty = false := by
    cases k0
    · exact absurd rfl hne
    · rfl
  simp [keyMatch, h1, h2, hemp, mkKey]

/-- The key regex fails when no `=` is in sight. -/
theorem keyMatch_none_no_eq (rest : List Char) (h : ∀ c ∈ rest, c ≠ '=') :
    keyMatch ('$' :: '$' :: '$' :: '/' :: rest) = none := by
  have hdw : rest.dropWhile (fun c => !(c = '=')) = [] :=
    List.dropWhile_eq_nil_iff.mpr (fun a ha => by simp [h a ha])
  simp [keyMatch, hdw]

/-- One full scan step over a leading well-formed invocation: the pair is
yielded and scanning resumes at the closing parenthesis. -/
theorem scan_tail :
    ∀ (ps : List (List Char × List Char)) (g : List Char) (f : Nat),
      (∀ c ∈ g, c ≠ 'L') →
      (∀ p ∈ ps, wfKeyTail p.1 ∧ plainValue p.2) →
      (g ++ mkDocs ps).length < f →
      scanLoop f (g ++ mkDocs ps) = ps.map (fun p => (mkKey p.1, p.2)) := by
  intro ps
  induction ps with
  | nil =>
    intro g f hg _ hf
    simp only [mkDocs, List.append_nil, List.map_nil]
    obtain ⟨f0, rfl⟩ : ∃ f0, f = f0 + 1 := ⟨f - 1, by omega⟩
    simp only [scanLoop, locSearch_eq_none g hg]
  | cons p ps' ih =>
    intro g f hg hwf hf
    obtain ⟨k0, v⟩ := p
    obtain ⟨⟨hk1, hk2, hk3⟩, hv⟩ := hwf (k0, v) (List.mem_cons_self _ _)
    have hk1' : k0 ≠ [] := hk1
    have hk2' : k0.length ≤ 495 := hk2
    have hk3' : ∀ c ∈ k0, c ≠ '=' ∧ pyWs c = false := hk3
    obtain ⟨f0, rfl⟩ : ∃ f0, f = f0 + 1 := ⟨f - 1, by omega⟩
    have hvplain := hv
    obtain ⟨hvne, hvch, _, _, _⟩ := hvplain
    -- the canonical suffix after the opening quote
    have hsearch :
        locSearch (g ++ mkDocs ((k0, v) :: ps'))
          = some ('$' :: '$' :: '$' :: '/' ::
              (k0 ++ '=' :: (v ++ '"' :: ')' :: mkDocs ps'))) := by
      have h0 : g ++ mkDocs ((k0, v) :: ps')
          = g ++ (mkDoc k0 v ++ mkDocs ps') := rfl
      rw [h0, locSearch_append_noL g _ hg]
      have h1 : locSearch (mkDoc k0 v ++ mkDocs ps')
          = some ((mkKey k0 ++ '=' :: (v ++ ['"', ')'])) ++ mkDocs ps') := rfl
      rw [h1]
      simp [mkKey, List.append_assoc]
    have htake500 :
        (('$' :: '$' :: '$' :: '/' ::
            (k0 ++ '=' :: (v ++ '"' :: ')' :: mkDocs ps'))) : List Char).take 500
          = '$' :: '$' :: '$' :: '/' ::
              ((k0 ++ '=' :: (v ++ '"' :: ')' :: mkDocs ps')).take 496) := rfl
    have htake496 :
        (k0 ++ '=' :: (v ++ '"' :: ')' :: mkDocs ps')).take 496
          = k0 ++ '=' ::
              ((v ++ '"' :: ')' :: mkDocs ps').take (495 - k0.length)) := by
      rw [List.take_append_eq_append_take,
        List.take_of_length_le (by omega : k0.length ≤ 496)]
      congr 1
      obtain ⟨m, hm⟩ : ∃ m, 496 - k0.length = m + 1 :=
        ⟨495 - k0.length, by omega⟩
      rw [hm, List.take_succ_cons]
      congr 2
      omega
    have hkm :
        keyMatch ((('$' :: '$' :: '$' :: '/' ::
            (k0 ++ '=' :: (v ++ '"' :: ')' :: mkDocs ps'))) : List Char).take 500)
          = some (mkKey k0, 4 + k0.length + 1) := by
      rw [htake500, htake496]
      exact keyMatch_mk k0 _ hk1 (fun c hc => (hk3 c hc).1)
    have hdrop :
        (('$' :: '$' :: '$' :: '/' ::
            (k0 ++ '=' :: (v ++ '"' :: ')' :: mkDocs ps'))) : List Char).drop
            (4 + k0.length + 1)
          = v ++ '"' :: ')' :: mkDocs ps' := by
      have hsh : (('$' :: '$' :: '$' :: '/' ::
          (k0 ++ '=' :: (v ++ '"' :: ')' :: mkDocs ps'))) : List Char)
          = mkKey k0 ++ '=' :: (v ++ '"' :: ')' :: mkDocs ps') := rfl
      have harith : 4 + k0.length + 1 = (mkKey k0).length + 1 := by
        simp [mkKey]
        omega
      rw [hsh, harith, List.drop_append 1]
      rfl
    have hmainfuel : (v ++ '"' :: ')' :: mkDocs ps').length + 1
        = v.length + ((mkDocs ps').length + 3) := by
      simp
      omega
    have hmain :
        mainLoop ((v ++ '"' :: ')' :: mkDocs ps').length + 1)
            (v ++ '"' :: ')' :: mkDocs ps') [] []
          = ([v], ')' :: mkDocs ps') := by
      unfold mainLoop
      rw [hmainfuel,
        fragLoop_plain v ((mkDocs ps').length + 3) ('"' :: ')' :: mkDocs ps')
          [] [] (fun c hc => ⟨(hvch c hc).1, (hvch c hc).2.1⟩)]
      have h39 : ((mkDocs ps').length + 3) = ((mkDocs ps').length + 2) + 1 := rfl
      rw [h39, fragLoop_quote_end _ _ _ _ ')' (mkDocs ps')
        (dropWhile_cons_false wsLoop ')' _ (by decide)) (Or.inr rfl)]
      have hpv : pushChars [] ([] ++ v) = [v] := by
        have : v.isEmpty = false := by
          cases v
          · exact absurd rfl hvne
          · rfl
        simp [pushChars, this]
      rw [hpv]
    have hval :
        extract_complete_value (v ++ '"' :: ')' :: mkDocs ps')
          = (some v, ')' :: mkDocs ps') := by
      unfold extract_complete_value
      rw [hmain]
      simp [clean_value_plain v hv]
    have hvemp : v.isEmpty = false := by
      cases v
      · exact absurd rfl hvne
      · rfl
    have hstrip : stripList (mkKey k0) = mkKey k0 := by
      apply stripList_id
      · intro c hc
        have : c = '$' := by
          simp [mkKey] at hc
          exact hc.symm
        subst this
        decide
      · intro c hc
        have hc' : (mkKey k0).getLast? = k0.getLast? := by
          have : mkKey k0 = ['$', '$', '$', '/'] ++ k0 := rfl
          rw [this, List.getLast?_append_of_ne_nil _ hk1]
        rw [hc'] at hc
        have hm : c ∈ k0 := by
          have hm' : c ∈ k0.getLast? := hc
          obtain ⟨hne', heq⟩ := List.mem_getLast?_eq_getLast hm'
          rw [heq]
          exact List.getLast_mem hne'
        exact (hk3 c hm).2
    have hlen12 : (mkDoc k0 v).length = k0.length + v.length + 12 := by
      simp [mkDoc, mkKey]
      omega
    have hlenD : (g ++ mkDocs ((k0, v) :: ps')).length
        = g.length + (k0.length + v.length + 12) + (mkDocs ps').length := by
      have : mkDocs ((k0, v) :: ps') = mkDoc k0 v ++ mkDocs ps' := rfl
      rw [this]
      simp [hlen12]
      omega
    simp only [scanLoop, hsearch, hkm, hdrop, hval, hvemp,
      Bool.false_eq_true, if_neg, not_false_eq_true]
    rw [if_pos (by simp; omega :
      ((')' :: mkDocs ps') : List Char).length
        < (v ++ '"' :: ')' :: mkDocs ps').length)]
    rw [hstrip]
    simp only [List.map_cons]
    congr 1
    have hstep : (')' :: mkDocs ps' : List Char) = [')'] ++ mkDocs ps' := rfl
    rw [hstep]
    apply ih [')'] f0 (by intro c hc; simp at hc; subst hc; decide)
      (fun p hp => hwf p (List.mem_cons_of_mem _ hp))
    rw [hlenD] at hf
    simp
    omega

/-- Stripping a well-formed key is the identity. -/
theorem stripList_mkKey (k0 : List Char) (hk1 : k0 ≠ [])
    (hk3 : ∀ c ∈ k0, pyWs c = false) : stripList (mkKey k0) = mkKey k0 := by
  apply stripList_id
  · intro c hc
    have hceq : c = '$' := by
      simp [mkKey] at hc
      exact hc.symm
    subst hceq
    decide
  · intro c hc
    have hc' : (mkKey k0).getLast? = k0.getLast? := by
      have hsh : mkKey k0 = ['$', '$', '$', '/'] ++ k0 := rfl
      rw [hsh, List.getLast?_append_of_ne_nil _ hk1]
    rw [hc'] at hc
    have hm : c ∈ k0 := by
      have hm' : c ∈ k0.getLast? := hc
      obtain ⟨hne', heq⟩ := List.mem_getLast?_eq_getLast hm'
      rw [heq]
      exact List.getLast_mem hne'
    exact hk3 c hm

/-- A scan with no call site in sight yields nothing, whatever the fuel. -/
theorem scanLoop_of_locSearch_none (f : Nat) (s : List Char)
    (h : locSearch s = none) : scanLoop f s = [] := by
  cases f with
  | zero => rfl
  | succ f => simp [scanLoop, h]

/-- C1: a well-formed invocation with a single double-quoted fragment and
a non-empty single-line value yields exactly its one pair, and a document
made of consecutive well-formed invocations yields exactly their pairs in
source order of appearance. -/
theorem claim_C1 :
    (∀ (k0 v : List Char), wfKeyTail k0 → plainValue v →
        extract_loc_strings (mkDoc k0 v) = [(mkKey k0, v)])
    ∧ (∀ ps : List (List Char × List Char),
        (∀ p ∈ ps, wfKeyTail p.1 ∧ plainValue p.2) →
        extract_loc_strings (mkDocs ps)
          = ps.map (fun p => (mkKey p.1, p.2))) := by
  have hmain : ∀ ps : List (List Char × List Char),
      (∀ p ∈ ps, wfKeyTail p.1 ∧ plainValue p.2) →
      extract_loc_strings (mkDocs ps) = ps.map (fun p => (mkKey p.1, p.2)) := by
    intro ps h
    unfold extract_loc_strings
    have hst := scan_tail ps [] ((mkDocs ps).length + 1) (by simp) h
      (by simp)
    simpa using hst
  constructor
  · intro k0 v hk hv
    have h1 := hmain [(k0, v)] (by
      intro p hp
      simp only [List.mem_singleton] at hp
      subst hp
      exact ⟨hk, hv⟩)
    have h2 : mkDocs [(k0, v)] = mkDoc k0 v := by
      simp [mkDocs]
    rw [h2] at h1
    simpa using h1
  · exact hmain

/-- C1 witness: the canonical example `LOC("$$$/a/b=Text")`. -/
theorem claim_C1_witness :
    extract_loc_strings (mkDoc "a/b".data "Text".data)
        = [(mkKey "a/b".data, "Text".data)]
      ∧ mkKey "a/b".data = "$$$/a/b".data
      ∧ mkDoc "a/b".data "Text".data = "LOC(\"$$$/a/b=Text\")".data := by
  refine ⟨claim_C1.1 "a/b".data "Text".data ?_ ?_, by decide, by decide⟩
  · constructor
    · decide
    · constructor
      · decide
      · decide
  · constructor
    · decide
    · refine ⟨by decide, by decide, by decide, by decide⟩

/-- One scan step whose key candidate is rejected: the scan resumes just
past the opening quote. -/
theorem scanLoop_step_none (f : Nat) (s s1 : List Char)
    (hls : locSearch s = some s1) (hkm : keyMatch (s1.take 500) = none) :
    scanLoop (f + 1) s = scanLoop f s1 := by
  simp only [scanLoop, hls, hkm]

/-- One scan step that yields a pair and advances to the stop position of
the value extraction. -/
theorem scanLoop_step_yield (f : Nat) (s s1 g : List Char) (klen : Nat)
    (v : List Char)
    (hls : locSearch s = some s1)
    (hkm : keyMatch (s1.take 500) = some (g, klen))
    (hv1 : (extract_complete_value (s1.drop klen)).1 = some v)
    (hvne : v.isEmpty = false)
    (hlt : (extract_complete_value (s1.drop klen)).2.length
      < (s1.drop klen).length) :
    scanLoop (f + 1) s
      = (stripList g, v)
          :: scanLoop f ((extract_complete_value (s1.drop klen)).2) := by
  simp only [scanLoop, hls, hkm, hv1]
  rw [if_neg (show ¬(v.isEmpty = true) from by simp [hvne]), if_pos hlt]

/-- C3: a truncation boundary — `LOC("$$$/k=" .. "A" .. someVar)` yields
the pair with the value accumulated before the non-literal concatenand,
and scanning continues correctly past the call site: whatever follows the
invocation is scanned exactly as it would be on its own. -/
theorem claim_C3 (rest : List Char) :
    extract_loc_strings ("LOC(\"$$$/k=\" .. \"A\" .. someVar)".data ++ rest)
      = ("$$$/k".data, "A".data) :: extract_loc_strings rest := by
  have hsearch : locSearch ("LOC(\"$$$/k=\" .. \"A\" .. someVar)".data ++ rest)
      = some ("$$$/k=\" .. \"A\" .. someVar)".data ++ rest) := rfl
  have hkm : keyMatch
      ((("$$$/k=\" .. \"A\" .. someVar)".data ++ rest).take 500))
      = some ("$$$/k".data, 6) := rfl
  have hval1 :
      (extract_complete_value
        (("$$$/k=\" .. \"A\" .. someVar)".data ++ rest).drop 6)).1
        = some "A".data := rfl
  have hval2 :
      (extract_complete_value
        (("$$$/k=\" .. \"A\" .. someVar)".data ++ rest).drop 6)).2
        = "someVar)".data ++ rest := rfl
  have hdrop : (("$$$/k=\" .. \"A\" .. someVar)".data ++ rest).drop 6)
      = "\" .. \"A\" .. someVar)".data ++ rest := rfl
  have h8 : ("someVar)".data : List Char).length = 8 := rfl
  have h20 : ("\" .. \"A\" .. someVar)".data : List Char).length = 20 := rfl
  have h31 : ("LOC(\"$$$/k=\" .. \"A\" .. someVar)".data : List Char).length
      = 31 := rfl
  have hlt :
      (extract_complete_value
        (("$$$/k=\" .. \"A\" .. someVar)".data ++ rest).drop 6)).2.length
        < (("$$$/k=\" .. \"A\" .. someVar)".data ++ rest).drop 6).length := by
    rw [hval2, hdrop, List.length_append, List.length_append, h8, h20]
    omega
  rw [show extract_loc_strings
        ("LOC(\"$$$/k=\" .. \"A\" .. someVar)".data ++ rest)
      = scanLoop
          (("LOC(\"$$$/k=\" .. \"A\" .. someVar)".data ++ rest).length + 1)
          ("LOC(\"$$$/k=\" .. \"A\" .. someVar)".data ++ rest) from rfl]
  rw [scanLoop_step_yield _ _ _ _ _ _ hsearch hkm hval1 (by decide) hlt]
  rw [hval2]
  rw [show extract_loc_strings rest = scanLoop (rest.length + 1) rest from rfl]
  congr 1
  exact scanLoop_append_noL "someVar)".data rest _ _ (by decide)
    (by rw [h8, List.length_append, h31]; omega) (by omega)

/-- C5 (amended): a call site whose opening fragment never closes before
the end of the document still yields a pair — the text accumulated up to
the end of the document is emitted (after cleaning) whenever it is
non-empty — and the scan does not fail. -/
theorem claim_C5_amended (k0 v : List Char) (hk : wfKeyTail k0)
    (hv : plainValue v) :
    extract_loc_strings (mkDocNoClose k0 v) = [(mkKey k0, v)] := by
  obtain ⟨hk1, hk2, hk3⟩ := hk
  have hvne : v ≠ [] := hv.1
  have hvch := hv.2.1
  have hvemp : v.isEmpty = false := by
    cases v
    · exact absurd rfl hvne
    · rfl
  have hsearch : locSearch (mkDocNoClose k0 v)
      = some ('$' :: '$' :: '$' :: '/' :: (k0 ++ '=' :: v)) := rfl
  have htake500 :
      (('$' :: '$' :: '$' :: '/' :: (k0 ++ '=' :: v)) : List Char).take 500
        = '$' :: '$' :: '$' :: '/' :: ((k0 ++ '=' :: v).take 496) := rfl
  have htake496 : (k0 ++ '=' :: v).take 496
      = k0 ++ '=' :: (v.take (495 - k0.length)) := by
    rw [List.take_append_eq_append_take,
      List.take_of_length_le (by omega : k0.length ≤ 496)]
    congr 1
    obtain ⟨m, hm⟩ : ∃ m, 496 - k0.length = m + 1 :=
      ⟨495 - k0.length, by omega⟩
    rw [hm, List.take_succ_cons]
    congr 2
    omega
  have hkm : keyMatch
      ((('$' :: '$' :: '$' :: '/' :: (k0 ++ '=' :: v)) : List Char).take 500)
        = some (mkKey k0, 4 + k0.length + 1) := by
    rw [htake500, htake496]
    exact keyMatch_mk k0 _ hk1 (fun c hc => (hk3 c hc).1)
  have hdrop :
      (('$' :: '$' :: '$' :: '/' :: (k0 ++ '=' :: v)) : List Char).drop
        (4 + k0.length + 1) = v := by
    have hsh : (('$' :: '$' :: '$' :: '/' :: (k0 ++ '=' :: v)) : List Char)
        = mkKey k0 ++ '=' :: v := rfl
    have harith : 4 + k0.length + 1 = (mkKey k0).length + 1 := by
      simp [mkKey]
      omega
    rw [hsh, harith, List.drop_append 1]
    rfl
  have hmain : mainLoop (v.length + 1) v [] [] = ([v], []) := by
    unfold mainLoop
    calc fragLoop (v.length + 1) false v [] []
        = fragLoop (v.length + 1) false (v ++ []) [] [] := by
          rw [List.append_nil]
      _ = fragLoop 1 false [] [] ([] ++ v) :=
          fragLoop_plain v 1 [] [] []
            (fun c hc => ⟨(hvch c hc).1, (hvch c hc).2.1⟩)
      _ = ([v], []) := by simp [fragLoop, pushChars, hvemp]
  have hval1 : (extract_complete_value v).1 = some v := by
    simp only [extract_complete_value, hmain]
    simp [clean_value_plain v hv, hvemp]
  have hval2 : (extract_complete_value v).2 = [] := by
    simp only [extract_complete_value, hmain]
    simp [hvemp]
  have hval1' :
      (extract_complete_value
        ((('$' :: '$' :: '$' :: '/' :: (k0 ++ '=' :: v)) : List Char).drop
          (4 + k0.length + 1))).1 = some v := by
    rw [hdrop]
    exact hval1
  have hval2' :
      (extract_complete_value
        ((('$' :: '$' :: '$' :: '/' :: (k0 ++ '=' :: v)) : List Char).drop
          (4 + k0.length + 1))).2 = [] := by
    rw [hdrop]
    exact hval2
  have hlt :
      (extract_complete_value
        ((('$' :: '$' :: '$' :: '/' :: (k0 ++ '=' :: v)) : List Char).drop
          (4 + k0.length + 1))).2.length
        < ((('$' :: '$' :: '$' :: '/' :: (k0 ++ '=' :: v)) : List Char).drop
          (4 + k0.length + 1)).length := by
    rw [hval2', hdrop]
    simpa using List.length_pos.mpr hvne
  rw [show extract_loc_strings (mkDocNoClose k0 v)
      = scanLoop ((mkDocNoClose k0 v).length + 1) (mkDocNoClose k0 v) from rfl]
  rw [scanLoop_step_yield _ _ _ _ _ _ hsearch hkm hval1' hvemp hlt]
  rw [hval2', scanLoop_nil, stripList_mkKey k0 hk1 (fun c hc => (hk3 c hc).2)]

/-- C5 (amended) witness: `LOC("$$$/k=Hi` with no closing quote yields the
pair with the partial text. -/
theorem claim_C5_witness :
    extract_loc_strings (mkDocNoClose "k".data "Hi".data)
        = [(mkKey "k".data, "Hi".data)]
      ∧ mkDocNoClose "k".data "Hi".data = "LOC(\"$$$/k=Hi".data := by
  refine ⟨claim_C5_amended "k".data "Hi".data ?_ ?_, by decide⟩
  · exact ⟨by decide, by decide, by decide⟩
  · exact ⟨by decide, by decide, by decide, by decide, by decide⟩

/-- C10: a candidate call site whose `=` sign falls beyond the 500
characters after the opening quote is rejected and (with no other call
site in the document) the scanner yields nothing. -/
theorem claim_C10 (k0 v : List Char) (h1 : 496 ≤ k0.length)
    (h2 : ∀ c ∈ k0, c ≠ '=' ∧ c ≠ 'L') (h3 : ∀ c ∈ v, c ≠ 'L') :
    extract_loc_strings (mkDoc k0 v) = [] := by
  have hsearch : locSearch (mkDoc k0 v)
      = some ('$' :: '$' :: '$' :: '/' :: (k0 ++ '=' :: (v ++ ['"', ')']))) :=
    rfl
  have htake500 :
      (('$' :: '$' :: '$' :: '/' :: (k0 ++ '=' :: (v ++ ['"', ')'])))
        : List Char).take 500
        = '$' :: '$' :: '$' :: '/'
            :: ((k0 ++ '=' :: (v ++ ['"', ')'])).take 496) := rfl
  have htake496 : (k0 ++ '=' :: (v ++ ['"', ')'])).take 496
      = k0.take 496 := by
    rw [List.take_append_eq_append_take]
    have hz : 496 - k0.length = 0 := by omega
    rw [hz]
    simp
  have hkm : keyMatch
      ((('$' :: '$' :: '$' :: '/' :: (k0 ++ '=' :: (v ++ ['"', ')'])))
        : List Char).take 500) = none := by
    rw [htake500, htake496]
    exact keyMatch_none_no_eq _
      (fun c hc => (h2 c (List.take_subset 496 k0 hc)).1)
  have hnone :
      locSearch ('$' :: '$' :: '$' :: '/' :: (k0 ++ '=' :: (v ++ ['"', ')'])))
        = none := by
    apply locSearch_eq_none
    intro c hc
    simp only [List.mem_cons, List.mem_append] at hc
    rcases hc with rfl | rfl | rfl | rfl | hc
    · decide
    · decide
    · decide
    · decide
    · rcases hc with hc | hc
      · exact (h2 c hc).2
      · rcases hc with rfl | hc
        · decide
        · rcases hc with hc | hc
          · exact h3 c hc
          · rcases hc with rfl | hc
            · decide
            · rcases hc with rfl | hc
              · decide
              · exact absurd hc (List.not_mem_nil c)
  rw [show extract_loc_strings (mkDoc k0 v)
      = scanLoop ((mkDoc k0 v).length + 1) (mkDoc k0 v) from rfl]
  rw [scanLoop_step_none _ _ _ hsearch hkm]
  exact scanLoop_of_locSearch_none _ _ hnone

/-- C10 witness: a 500-character key (the `=` is the 501st character after
the quote) is rejected. -/
theorem claim_C10_witness :
    extract_loc_strings (mkDoc (List.replicate 496 'a') "Text".data) = [] := by
  apply claim_C10
  · exact le_of_eq (List.length_replicate 496 'a').symm
  · intro c hc
    rw [List.eq_of_mem_replicate hc]
    exact ⟨by decide, by decide⟩
  · decide

/-- A successful key match always returns `$$$/` followed by `=`-free
text. -/
theorem keyMatch_shape (l g : List Char) (klen : Nat)
    (h : keyMatch l = some (g, klen)) :
    ∃ pre, g = '$' :: '$' :: '$' :: '/' :: pre ∧ ∀ c ∈ pre, c ≠ '=' := by
  rw [keyMatch.eq_def] at h
  split at h
  · next rest =>
    by_cases hemp : (rest.takeWhile (fun c => !(c = '='))).isEmpty
    · rw [if_pos hemp] at h
      exact absurd h (by simp)
    · rw [if_neg hemp] at h
      split at h
      · injection h with h'
        have h1 : ('$' :: '$' :: '$' :: '/'
            :: rest.takeWhile (fun c => !(c = '=')) : List Char) = g :=
          congrArg Prod.fst h'
        refine ⟨rest.takeWhile (fun c => !(c = '=')), h1.symm, ?_⟩
        intro c hc
        simpa using List.mem_takeWhile_imp hc
      · exact absurd h (by simp)
  · exact absurd h (by simp)

/-- Dropping a predicate-prefix from `x ++ t` keeps `t` intact when the
head of `t` does not match. -/
theorem dropWhile_append_stop (p : Char → Bool) :
    ∀ (x t : List Char), (∀ c, t.head? = some c → p c = false) →
      ∃ y, (x ++ t).dropWhile p = y ++ t := by
  intro x
  induction x with
  | nil =>
    intro t ht
    exact ⟨[], by simpa using dropWhile_id_of_head p t ht⟩
  | cons c x' ih =>
    intro t ht
    by_cases hc : p c
    · obtain ⟨y, hy⟩ := ih t ht
      refine ⟨y, ?_⟩
      show ((c :: (x' ++ t)).dropWhile p) = y ++ t
      rw [List.dropWhile_cons_of_pos hc]
      exact hy
    · refine ⟨c :: x', ?_⟩
      show ((c :: (x' ++ t)).dropWhile p) = (c :: x') ++ t
      rw [dropWhile_cons_false p _ _ (by simpa using hc)]
      simp

/-- Stripping a matched key group keeps the `$$$/` prefix. -/
theorem stripList_key_shape (pre : List Char) :
    ∃ y, stripList ('$' :: '$' :: '$' :: '/' :: pre)
        = '$' :: '$' :: '$' :: '/' :: y := by
  unfold stripList
  rw [dropWhile_id_of_head pyWs ('$' :: '$' :: '$' :: '/' :: pre) (by
    intro c hc
    have hc' : c = '$' := by simpa using hc.symm
    subst hc'
    decide)]
  have hrev : ('$' :: '$' :: '$' :: '/' :: pre : List Char).reverse
      = pre.reverse ++ ['/', '$', '$', '$'] := by
    simp
  rw [hrev]
  obtain ⟨y, hy⟩ := dropWhile_append_stop pyWs pre.reverse ['/', '$', '$', '$']
    (by
      intro c hc
      have hc' : c = '/' := by simpa using hc.symm
      subst hc'
      decide)
  rw [hy]
  refine ⟨y.reverse, ?_⟩
  simp

/-- Every key the scanner ever yields begins with `$$$/` and contains no
`=`. -/
theorem scanLoop_keys :
    ∀ (f : Nat) (s k v : List Char), (k, v) ∈ scanLoop f s →
      (∃ pre, k = '$' :: '$' :: '$' :: '/' :: pre) ∧ '=' ∉ k := by
  intro f
  induction f with
  | zero => intro s k v h; simp [scanLoop] at h
  | succ f ih =>
    intro s k v h
    cases hls : locSearch s with
    | none => simp only [scanLoop, hls, List.not_mem_nil] at h
    | some s1 =>
      cases hkm : keyMatch (s1.take 500) with
      | none =>
        rw [scanLoop_step_none f s s1 hls hkm] at h
        exact ih s1 k v h
      | some gk =>
        obtain ⟨g, klen⟩ := gk
        simp only [scanLoop, hls, hkm] at h
        cases hrv : (extract_complete_value (s1.drop klen)).1 with
        | none =>
          simp only [hrv] at h
          exact ih _ k v h
        | some w =>
          simp only [hrv] at h
          by_cases hwe : w.isEmpty = true
          · rw [if_pos hwe] at h
            exact ih _ k v h
          · rw [if_neg hwe] at h
            rcases List.mem_cons.mp h with heq | hmem
            · have hk : k = stripList g := congrArg Prod.fst heq
              obtain ⟨pre, hg, hpre⟩ := keyMatch_shape _ _ _ hkm
              obtain ⟨y, hy⟩ := stripList_key_shape pre
              constructor
              · exact ⟨y, by rw [hk, hg, hy]⟩
              · intro hmemk
                rw [hk] at hmemk
                have h1 : '=' ∈ g := mem_stripList g '=' hmemk
                rw [hg] at h1
                simp only [List.mem_cons] at h1
                rcases h1 with h1 | h1 | h1 | h1 | h1
                · exact absurd h1 (by decide)
                · exact absurd h1 (by decide)
                · exact absurd h1 (by decide)
                · exact absurd h1 (by decide)
                · exact hpre '=' h1 rfl
            · exact ih _ k v hmem

/-- C6 (amended): every key the scanner yields begins with `$$$/` and
contains no `=` character — whitespace inside a key is accepted by the
key pattern, only outer whitespace is stripped — and when the text after
the opening quote fails the key pattern, that candidate yields nothing
and the scan resumes at the position immediately past the opening
quote. -/
theorem claim_C6_amended :
    (∀ (doc k v : List Char), (k, v) ∈ extract_loc_strings doc →
        (∃ pre, k = '$' :: '$' :: '$' :: '/' :: pre) ∧ '=' ∉ k)
    ∧ (∀ (f : Nat) (s s1 : List Char), locSearch s = some s1 →
        keyMatch (s1.take 500) = none →
        scanLoop (f + 1) s = scanLoop f s1) :=
  ⟨fun doc k v h => scanLoop_keys (doc.length + 1) doc k v h,
   fun f s s1 h1 h2 => scanLoop_step_none f s s1 h1 h2⟩

/-- C6 (amended) witness: a concrete yielded key has the `$$$/` prefix
and no `=`, and a concrete failing candidate resumes past the opening
quote. -/
theorem claim_C6_witness :
    ((∃ pre, ("$$$/a".data : List Char) = '$' :: '$' :: '$' :: '/' :: pre)
      ∧ '=' ∉ ("$$$/a".data : List Char))
    ∧ scanLoop (0 + 1) "LOC(\"zz".data = scanLoop 0 "zz".data :=
  ⟨claim_C6_amended.1 "LOC(\"$$$/a=b\")".data "$$$/a".data "b".data
      (by decide),
   claim_C6_amended.2 0 "LOC(\"zz".data "zz".data (by decide) (by decide)⟩

/-- C4 (amended): escape resolution is quote-style dependent.  In a
double-quoted fragment, `\n`, `\t`, `\"` and `\\` resolve to newline, tab,
quote and backslash, while `\'` keeps its backslash (the quote is
re-examined as an ordinary character).  In a single-quoted fragment only
`\'` and `\n` resolve (to a quote and a newline); `\t`, `\"` and `\\` keep
their backslash and the following character is re-examined. -/
theorem claim_C4_amended :
    (∀ (f : Nat) (r : List Char) (p : List (List Char)) (a : List Char),
        mainLoop (f + 1) ('\\' :: 'n' :: r) p a = mainLoop f r p (a ++ ['\n'])
      ∧ mainLoop (f + 1) ('\\' :: 't' :: r) p a = mainLoop f r p (a ++ ['\t'])
      ∧ mainLoop (f + 1) ('\\' :: '"' :: r) p a = mainLoop f r p (a ++ ['"'])
      ∧ mainLoop (f + 1) ('\\' :: '\\' :: r) p a = mainLoop f r p (a ++ ['\\'])
      ∧ mainLoop (f + 1) ('\\' :: squote :: r) p a
          = mainLoop f (squote :: r) p (a ++ ['\\']))
    ∧ (∀ (f : Nat) (r : List Char) (p : List (List Char)) (a : List Char),
        singleLoop (f + 1) ('\\' :: squote :: r) p a
          = singleLoop f r p (a ++ [squote])
      ∧ singleLoop (f + 1) ('\\' :: 'n' :: r) p a
          = singleLoop f r p (a ++ ['\n'])
      ∧ singleLoop (f + 1) ('\\' :: 't' :: r) p a
          = singleLoop f ('t' :: r) p (a ++ ['\\'])
      ∧ singleLoop (f + 1) ('\\' :: '"' :: r) p a
          = singleLoop f ('"' :: r) p (a ++ ['\\'])
      ∧ singleLoop (f + 1) ('\\' :: '\\' :: r) p a
          = singleLoop f ('\\' :: r) p (a ++ ['\\'])) :=
  ⟨fun _ _ _ _ => ⟨rfl, rfl, rfl, rfl, rfl⟩,
   fun _ _ _ _ => ⟨rfl, rfl, rfl, rfl, rfl⟩⟩

end Translation
